import Mathlib

/-!
Verification of the morphodict core components against their sources:

* `CreeDictionary/phrase_translate/tag_map.py` (`TagMap`, `is_subsequence`),
* `src/CreeDictionary/CreeDictionary/paradigm/manager.py`
  (`ParadigmManagerWithExplicitSizes`),
* `src/CreeDictionary/API/search/presentation.py`
  (`get_lexical_information`, `generate_reduplication_string`).

Python dictionaries are embedded as association lists (insertion order
preserved, assignment replaces in place), Python exceptions as `Except`,
and Python strings as Lean strings manipulated at the character-list
level so that every definition evaluates by kernel reduction.
-/

/-- First-match lookup in an association list: the value stored under key
`k`, embedding Python `dict.__getitem__` / `dict.get` (keys are unique by
construction, so first match is the dict entry). -/
def alookup {κ ν : Type} [DecidableEq κ] : List (κ × ν) → κ → Option ν
  | [], _ => none
  | (k', v) :: rest, k => if k' = k then some v else alookup rest k

/-- Embedding of Python dict assignment `d[k] = v`: replaces the value in
place if the key is present, otherwise appends, preserving insertion
order. -/
def dictInsert {κ ν : Type} [DecidableEq κ] (k : κ) (v : ν) : List (κ × ν) → List (κ × ν)
  | [] => [(k, v)]
  | (k', v') :: rest => if k' = k then (k, v) :: rest else (k', v') :: dictInsert k v rest

/-- One insertion step of a stable insertion sort on key-decorated
elements: `x` is placed before the first element whose key is `≥` the key
of `x`, so elements with equal keys keep their relative order. -/
def sinsert {α κ : Type} [LinearOrder κ] (x : α × κ) : List (α × κ) → List (α × κ)
  | [] => [x]
  | y :: ys => if x.2 ≤ y.2 then x :: y :: ys else y :: sinsert x ys

/-- Stable sort by key, embedding Python's stable `list.sort(key=...)` /
`sorted(..., key=...)` (Timsort is stable; any stable sort produces the
same output). -/
def ssort {α κ : Type} [LinearOrder κ] : List (α × κ) → List (α × κ)
  | [] => []
  | x :: xs => sinsert x (ssort xs)

/-- Key-then-rest decoration of a list of elements by an association
list, failing on the first element missing from the table. This embeds
Python's evaluation of a `key` function built from `dict.__getitem__`
over a list, which raises `KeyError` at the first missing key. -/
def adecorate {α κ ε : Type} [DecidableEq α] (err : ε) (table : List (α × κ)) :
    List α → Except ε (List (α × κ))
  | [] => .ok []
  | a :: rest =>
    match alookup table a with
    | none => .error err
    | some v =>
      match adecorate err table rest with
      | .error e => .error e
      | .ok ps => .ok ((a, v) :: ps)

/-- Embedding of Python `str.split(sep)` for a single-character separator,
at the character-list level (`"".split(sep) == [""]`, empty pieces kept). -/
def splitCharsOn (sep : Char) : List Char → List (List Char)
  | [] => [[]]
  | c :: cs =>
    let r := splitCharsOn sep cs
    if c = sep then [] :: r
    else
      match r with
      | [] => [[c]]
      | g :: gs => (c :: g) :: gs

/-- Python `s.split(sep)` for a one-character `sep`, producing strings. -/
def pySplit (sep : Char) (s : String) : List String :=
  (splitCharsOn sep s.data).map String.mk

/-- Character-list test that the first list starts with the second. -/
def charsStart : List Char → List Char → Bool
  | _, [] => true
  | [], _ :: _ => false
  | c :: cs, p :: ps => decide (c = p) && charsStart cs ps

/-- Embedding of Python `s.startswith(p)`. -/
def pyStarts (s p : String) : Bool := charsStart s.data p.data

/-- Drops every leading `'-'` character. -/
def dropLeadHyphens : List Char → List Char
  | [] => []
  | c :: cs => if c = '-' then dropLeadHyphens cs else c :: cs

/-- Embedding of Python `s.strip("-")`: removes ALL leading and trailing
hyphen characters. -/
def strip_hyphens (s : String) : String :=
  String.mk ((dropLeadHyphens ((dropLeadHyphens s.data).reverse)).reverse)

/-! ## TagMap (`CreeDictionary/phrase_translate/tag_map.py`) -/

/-- Runtime value of a `phrase_tag_spec` after compilation: a target tag
string, Python `None` (the "drop" marker), or the `TagMap.COPY_TAG_NAME`
sentinel object. -/
inductive PVal : Type
  | str : String → PVal
  | none_ : PVal
  | copySent : PVal
deriving DecidableEq

/-- A `wordform_tag_spec`: a single tag string, a tuple of tag strings
(multi-tag), or the `TagMap.DEFAULT` sentinel object. -/
inductive WSpec : Type
  | single : String → WSpec
  | multi : List String → WSpec
  | default_ : WSpec
deriving DecidableEq

/-- One tag definition triple `(wordform_tag_spec, phrase_tag_spec, prec)`. -/
abbrev TagDef : Type := WSpec × PVal × Int

/-- Exceptions raised by `TagMap.__init__` (including the failed
`assert` for a copy tag not starting with `+`). -/
inductive CfgErr : Type
  | copyWithMulti : CfgErr
  | multipleDefaults : CfgErr
  | conflictingPrecedences : CfgErr
  | assertionError : CfgErr
deriving DecidableEq

/-- The compiled state of a `TagMap`: the four internal tables built by
`TagMap.__init__`. -/
structure TagMap : Type where
  multi_mappings : List (List String × PVal × Int)
  tag_mapping : List (String × PVal)
  precedences : List (PVal × Int)
  defaults_by_precedence : List (Int × PVal)
deriving DecidableEq

/-- Lines 46-53 of `tag_map.py`: register the precedence of a (non-`None`)
phrase tag, raising on a conflicting precedence for an already-registered
target. -/
def registerPrec (s : TagMap) (p : PVal) (prec : Int) : Except CfgErr TagMap :=
  if p = PVal.none_ then .ok s
  else
    match alookup s.precedences p with
    | some q => if prec ≠ q then .error .conflictingPrecedences else .ok s
    | none => .ok { s with precedences := s.precedences ++ [(p, prec)] }

/-- The body of the `for` loop of `TagMap.__init__` for one definition
triple (lines 25-53 of `tag_map.py`). -/
def processDef (s : TagMap) (d : TagDef) : Except CfgErr TagMap :=
  match d with
  | (.multi ts, p, prec) =>
    if p = PVal.copySent then .error .copyWithMulti
    else registerPrec { s with multi_mappings := s.multi_mappings ++ [(ts, p, prec)] } p prec
  | (.default_, p, prec) =>
    if (alookup s.defaults_by_precedence prec).isSome then .error .multipleDefaults
    else
      registerPrec
        { s with defaults_by_precedence := dictInsert prec p s.defaults_by_precedence } p prec
  | (.single t, .copySent, prec) =>
    if pyStarts t "+" then
      registerPrec
        { s with tag_mapping := dictInsert t (PVal.str (t.drop 1 ++ "+")) s.tag_mapping }
        (PVal.str (t.drop 1 ++ "+")) prec
    else .error .assertionError
  | (.single t, p, prec) =>
    registerPrec { s with tag_mapping := dictInsert t p s.tag_mapping } p prec

/-- The `for` loop of `TagMap.__init__` over all definitions. -/
def buildTagMap (s : TagMap) : List TagDef → Except CfgErr TagMap
  | [] => .ok s
  | d :: rest =>
    match processDef s d with
    | .error e => .error e
    | .ok s' => buildTagMap s' rest

/-- `TagMap(*tag_definitions)`: compile a list of definitions, starting
from four empty tables. -/
def TagMap.make (defs : List TagDef) : Except CfgErr TagMap :=
  buildTagMap ⟨[], [], [], []⟩ defs

/-- The phrase-tag value registered in `_precedences` by one definition
(`None` if the definition registers nothing or raises on its own). -/
def regTarget : TagDef → Option PVal
  | (.multi _, p, _) =>
    if p = PVal.copySent then none else if p = PVal.none_ then none else some p
  | (.default_, p, _) => if p = PVal.none_ then none else some p
  | (.single t, .copySent, _) =>
    if pyStarts t "+" then some (PVal.str (t.drop 1 ++ "+")) else none
  | (.single _, p, _) => if p = PVal.none_ then none else some p

/-- One step of the iterator scan performed by Python `x in it` on a list
iterator: consume elements until `x` is found, returning the remaining
iterator state, or `none` if the iterator is exhausted. -/
def iterFind : List String → String → Option (List String)
  | [], _ => none
  | y :: ys, x => if y = x then some ys else iterFind ys x

/-- The generator `all(x in it for x in target_subsequence)` over the
shared iterator (short-circuiting on the first failure). -/
def isSubseqGo : List String → List String → Bool
  | _, [] => true
  | st, x :: xs =>
    match iterFind st x with
    | none => false
    | some st' => isSubseqGo st' xs

/-- `is_subsequence(outer_list, target_subsequence)` from `tag_map.py`
lines 6-8: the shared-iterator greedy subsequence test. -/
def is_subsequence (outer_list target : List String) : Bool :=
  isSubseqGo outer_list target

/-- Runtime errors raised by `TagMap.map_tags`: `UnknownTagError` carrying
the offending tag, or the `KeyError` of a `_precedences` lookup. -/
inductive MapErr : Type
  | unknownTag : String → MapErr
  | keyError : MapErr
deriving DecidableEq

/-- The body of the multi-mapping loop of `map_tags` (lines 63-67) for one
rule: if the rule's tags are a subsequence of the working list, append the
target (unless it is `None`) and remove every working tag whose value is
in the rule's source tuple. -/
def multi_step (acc : List String × List PVal) (rule : List String × PVal × Int) :
    List String × List PVal :=
  if is_subsequence acc.1 rule.1 then
    (acc.1.filter (fun x => !(rule.1.contains x)),
      acc.2 ++ (if rule.2.1 = PVal.none_ then [] else [rule.2.1]))
  else acc

/-- The multi-mapping loop over all registered multi-tag rules, in
registration order. -/
def multi_phase (rules : List (List String × PVal × Int)) (acc : List String × List PVal) :
    List String × List PVal :=
  match rules with
  | [] => acc
  | r :: rest => multi_phase rest (multi_step acc r)

/-- The normal-mapping loop of `map_tags` (lines 70-76): look up each
remaining tag, raising `UnknownTagError` on a missing one, and append the
target when it is not `None` and not already collected. -/
def singles_phase (tm : TagMap) : List String → List PVal → Except MapErr (List PVal)
  | [], acc => .ok acc
  | tag :: rest, acc =>
    match alookup tm.tag_mapping tag with
    | none => .error (.unknownTag tag)
    | some pv =>
      singles_phase tm rest (if pv ≠ PVal.none_ ∧ ¬ pv ∈ acc then acc ++ [pv] else acc)

/-- The default-injection loop of `map_tags` (lines 80-82): append the
default of every precedence not represented among the collected tags, in
registration order. -/
def defaults_phase : List (Int × PVal) → List Int → List PVal → List PVal
  | [], _, acc => acc
  | (p, d) :: rest, used, acc =>
    defaults_phase rest used (if p ∈ used then acc else acc ++ [d])

/-- Lines 56-82 of `map_tags`: the collected output before sorting —
multi-tag outputs first (registration order), then single-tag outputs
(input order), then injected defaults (registration order). Line 79's
`used_precedences` set comprehension raises `KeyError` on an output tag
missing from `_precedences`. -/
def TagMap.collect (tm : TagMap) (input_tags : List String) : Except MapErr (List PVal) :=
  let mp := multi_phase tm.multi_mappings (input_tags, [])
  match singles_phase tm mp.1 mp.2 with
  | .error e => .error e
  | .ok out2 =>
    match adecorate MapErr.keyError tm.precedences out2 with
    | .error e => .error e
    | .ok used => .ok (defaults_phase tm.defaults_by_precedence (used.map Prod.snd) out2)

/-- `TagMap.map_tags` (lines 55-88): collect, then stable-sort by the
precedence of each collected tag (line 86; the sort key
`self._precedences.__getitem__` raises `KeyError` on a missing tag). -/
def TagMap.map_tags (tm : TagMap) (input_tags : List String) : Except MapErr (List PVal) :=
  match tm.collect input_tags with
  | .error e => .error e
  | .ok out3 =>
    match adecorate MapErr.keyError tm.precedences out3 with
    | .error e => .error e
    | .ok pairs => .ok ((ssort pairs).map Prod.fst)

/-- The four-rule tag map of the spec's worked example:
`(DEFAULT, "T0", 0)`, `("+Fut", "future", 0)`, `("+Cond", "conditional", 0)`,
`(("+Obv", "+Pl"), "obv-pl", 1)`. -/
def defs3 : List TagDef :=
  [(WSpec.default_, PVal.str "T0", 0),
   (WSpec.single "+Fut", PVal.str "future", 0),
   (WSpec.single "+Cond", PVal.str "conditional", 0),
   (WSpec.multi ["+Obv", "+Pl"], PVal.str "obv-pl", 1)]

/-- The compiled example tag map. -/
def tm3 : Except CfgErr TagMap := TagMap.make defs3

/-- A tiny concrete tag map used as a witness input: one single-tag rule
`"+A" -> "a"` at precedence 0. -/
def tmW : TagMap := ⟨[], [("+A", PVal.str "a")], [(PVal.str "a", 0)], []⟩

/-! ## Paradigm manager (`CreeDictionary/paradigm/manager.py`) -/

/-- The implicit size sentinel for paradigms with no size variants. -/
def ONLY_SIZE : String := "<only-size>"

/-- A `ParadigmManagerWithExplicitSizes`: the layout values themselves
are never inspected by the verified operations, so `_name_to_layout` is embedded
as the association of each paradigm name with the ordered key list of its
size-to-layout dict, together with the `ordered_sizes` constructor
argument. -/
structure ParadigmManagerWithExplicitSizes : Type where
  name_to_layout : List (String × List String)
  ordered_sizes : List String
deriving DecidableEq

/-- Errors raised by size lookups: `ParadigmDoesNotExistError`, or the
`KeyError` of `_size_to_order[element]` inside the sort key. -/
inductive SizeErr : Type
  | paradigmDoesNotExist : SizeErr
  | keyError : SizeErr
deriving DecidableEq

/-- The dict comprehension
`{element: index for index, element in enumerate(ordered_sizes)}`. -/
def sizeToOrderGo : Nat → List String → List (String × Nat) → List (String × Nat)
  | _, [], d => d
  | i, s :: rest, d => sizeToOrderGo (i + 1) rest (dictInsert s i d)

/-- `self._size_to_order` built by the constructor. -/
def size_to_order (m : ParadigmManagerWithExplicitSizes) : List (String × Nat) :=
  sizeToOrderGo 0 m.ordered_sizes []

/-- `ParadigmManager.sizes_of` via `_sizes_or_error_of` (lines 87-103):
the size keys of the given paradigm, raising `ParadigmDoesNotExistError`
when the name is unregistered (or its sub-dict is empty and hence falsy). -/
def super_sizes_of (m : ParadigmManagerWithExplicitSizes) (name : String) :
    Except SizeErr (List String) :=
  match alookup m.name_to_layout name with
  | some sizes => if sizes = [] then .error .paradigmDoesNotExist else .ok sizes
  | none => .error .paradigmDoesNotExist

/-- `ParadigmManagerWithExplicitSizes.sizes_of` (lines 149-151):
`sorted(super().sizes_of(name), key=self._sort_by_explict_order)` — the
key function `self._size_to_order[element]` raises `KeyError` on a size
absent from the declared order. -/
def sizes_of (m : ParadigmManagerWithExplicitSizes) (name : String) :
    Except SizeErr (List String) :=
  match super_sizes_of m name with
  | .error e => .error e
  | .ok unsorted =>
    match adecorate SizeErr.keyError (size_to_order m) unsorted with
    | .error e => .error e
    | .ok pairs => .ok ((ssort pairs).map Prod.fst)

/-- The paradigm loop of `all_sizes_fully_specified` (lines 168-181),
iterating over the registry entries; returns `false` at the first size
that is not in `valid_sizes`. -/
def checkParadigms (valid : List String) : List (String × List String) → Except SizeErr Bool
  | [] => .ok true
  | (_, sizes) :: rest =>
    if sizes = [] then .error .paradigmDoesNotExist
    else if sizes.any (fun s => !(valid.contains s)) then .ok false
    else checkParadigms valid rest

/-- `all_sizes_fully_specified` (lines 160-181):
`valid_sizes = {ONLY_SIZE} | self._size_to_order.keys()`, then every
discovered size of every registered paradigm must be valid. -/
def all_sizes_fully_specified (m : ParadigmManagerWithExplicitSizes) : Except SizeErr Bool :=
  checkParadigms (ONLY_SIZE :: (size_to_order m).map Prod.fst) m.name_to_layout

/-- A manager whose only paradigm is registered under the implicit
only-size sentinel, with a declared order that does not contain the
sentinel. -/
def pmOnly : ParadigmManagerWithExplicitSizes :=
  ⟨[("p", [ONLY_SIZE])], ["full"]⟩

/-- A fully-declared manager used as a witness input. -/
def pmW : ParadigmManagerWithExplicitSizes :=
  ⟨[("p", ["full", "small"])], ["small", "full"]⟩

/-! ## Lexical-feature extraction (`API/search/presentation.py`) -/

/-- The subset of a preverb lexical record used by the extractor: its
`text` and its lemma flag. -/
structure Preverb : Type where
  text : String
  is_lemma : Bool
deriving DecidableEq

/-- The `type` literal attached to a produced `_LexicalEntry`. -/
inductive LexKind : Type
  | Preverb : LexKind
  | Reduplication : LexKind
  | InitialChange : LexKind
deriving DecidableEq

/-- The `entry` payload of a `_LexicalEntry`: a synthesized
`_ReduplicationResult` (text plus definition texts) or a preverb record. -/
inductive LexEntryVal : Type
  | redup : String → List String → LexEntryVal
  | preverb : Preverb → LexEntryVal
deriving DecidableEq

/-- `_LexicalEntry` from `presentation.py`. -/
structure LexicalEntry : Type where
  entry : LexEntryVal
  type : LexKind
  index : Nat
  original_tag : String
deriving DecidableEq

/-- Membership of the lower-cased character in the fixed consonant set
`"chkmnpstwy"` (line 246 and the `letter.lower() in consonants` tests). -/
def is_consonant (c : Char) : Bool := "chkmnpstwy".data.contains c.toLower

/-- `generate_reduplication_string(result_analysis_tags, tag, i)` (lines
245-255). Reading past the end of the tag list, or a following token whose
final `/`-segment is empty, raises `IndexError` (`.error ()`). -/
def generate_reduplication_string (result_analysis_tags : List String) (tag : String)
    (i : Nat) : Except Unit String :=
  match result_analysis_tags[i + 1]? with
  | none => .error ()
  | some word =>
    match ((pySplit '/' word).getLastD "").data with
    | [] => .error ()
    | letter :: _ =>
      if tag = "RdplW" then
        .ok (if is_consonant letter then String.mk [letter] ++ "a-" else "ay-")
      else
        .ok (if is_consonant letter then String.mk [letter] ++ "âh-" else "âh-")

/-- Python `min(iterable, key=...)` on a nonempty list: the first element
attaining the minimal key (a later element replaces the current best only
when strictly smaller). -/
def min_by_key {α : Type} (key : α → Nat) : α → List α → α
  | best, [] => best
  | best, x :: xs => min_by_key key (if key x < key best then x else best) xs

/-- Modelled from the spec: `get_modified_distance` (from
`CreeDictionary.utils`, not among the sources) is "an edit-distance
metric" between the canonical preverb text and a candidate's text;
modelled as the standard Levenshtein edit distance over characters. -/
def get_modified_distance (a b : String) : Nat :=
  levenshtein Levenshtein.defaultCost a.data b.data

/-- Formalization of the spec's words "the candidate's text first
stripped of a trailing hyphen", for comparison with the code's
`pr.text.strip("-")` (which strips both ends). -/
def rstrip_hyphens (s : String) : String :=
  String.mk ((dropLeadHyphens s.data.reverse).reverse)

/-- The body of the `for (i, tag)` loop of `get_lexical_information`
(lines 176-240) for one tag, parameterized by the external collaborators:
`lingShort` (`LABELS.linguistic_short.get`), `fetchPreverbs`
(`lookup.fetch_preverbs`) and `dist` (`get_modified_distance`). Returns
the produced entry, if any. -/
def glx_step (lingShort : String → Option String) (fetchPreverbs : String → List Preverb)
    (dist : String → String → Nat) (tags : List String) (i : Nat) (tag : String) :
    Except Unit (Option LexicalEntry) :=
  if tag = "RdplW" ∨ tag = "RdplS" then
    match generate_reduplication_string tags tag i with
    | .error e => .error e
    | .ok rs =>
      .ok (some ⟨.redup rs [if tag = "RdplS" then "Strong reduplication"
                            else "Weak Reduplication"],
                 .Reduplication, i, tag⟩)
  else if pyStarts tag "PV/" then
    match lingShort tag with
    | none => .ok none
    | some ls =>
      if ls = "" then .ok none
      else
        let normative := (ls.drop 9).dropRight 1
        match fetchPreverbs normative with
        | [] => .ok (some ⟨.preverb ⟨normative, true⟩, .Preverb, i, tag⟩)
        | r :: rs =>
          .ok (some ⟨.preverb
                (min_by_key (fun pr => dist normative (strip_hyphens pr.text)) r rs),
                .Preverb, i, tag⟩)
  else .ok none

/-- The `for (i, tag) in enumerate(result_analysis_tags)` loop, collecting
entries in tag order and propagating any `IndexError`. -/
def glx_list (lingShort : String → Option String) (fetchPreverbs : String → List Preverb)
    (dist : String → String → Nat) (tags : List String) :
    Nat → List String → Except Unit (List LexicalEntry)
  | _, [] => .ok []
  | i, tag :: rest =>
    match glx_step lingShort fetchPreverbs dist tags i tag with
    | .error e => .error e
    | .ok o =>
      match glx_list lingShort fetchPreverbs dist tags (i + 1) rest with
      | .error e => .error e
      | .ok others => .ok (o.toList ++ others)

/-- `get_lexical_information(result_analysis)` (lines 171-243): split the
analysis on `+`, run the tag loop, and return the entries stable-sorted by
their index (line 243). -/
def get_lexical_information (lingShort : String → Option String)
    (fetchPreverbs : String → List Preverb) (dist : String → String → Nat)
    (result_analysis : String) : Except Unit (List LexicalEntry) :=
  match glx_list lingShort fetchPreverbs dist (pySplit '+' result_analysis) 0
      (pySplit '+' result_analysis) with
  | .error e => .error e
  | .ok l => .ok ((ssort (l.map (fun e => (e, e.index)))).map Prod.fst)

/-- Concrete label lookup for the preverb counterexample: resolves the
tag `"PV/a"` to the short label `"Preverb: a-"`. -/
def lingShortC : String → Option String :=
  fun t => if t = "PV/a" then some "Preverb: a-" else none

/-- Concrete preverb lookup for the counterexample: canonical text `"a"`
has the two candidates `"ab-"` and `"-a"` (in this order). -/
def fetchPreverbsC : String → List Preverb :=
  fun s => if s = "a" then [⟨"ab-", true⟩, ⟨"-a", true⟩] else []

/-! ## Association-list lemmas -/

theorem alookup_append_some {κ ν : Type} [DecidableEq κ] {l : List (κ × ν)}
    (l' : List (κ × ν)) {k : κ} {v : ν} (h : alookup l k = some v) :
    alookup (l ++ l') k = some v := by
  induction l with
  | nil => simp [alookup] at h
  | cons p rest ih =>
    by_cases hk : p.1 = k
    · simpa [alookup, hk] using by simpa [alookup, hk] using h
    · simp only [alookup, hk, if_neg] at h ⊢
      exact ih h

theorem alookup_append_none {κ ν : Type} [DecidableEq κ] {l : List (κ × ν)}
    (l' : List (κ × ν)) {k : κ} (h : alookup l k = none) :
    alookup (l ++ l') k = alookup l' k := by
  induction l with
  | nil => simp [alookup]
  | cons p rest ih =>
    by_cases hk : p.1 = k
    · simp [alookup, hk] at h
    · simp only [alookup, hk, if_neg] at h ⊢
      exact ih h

theorem alookup_dictInsert_self {κ ν : Type} [DecidableEq κ] (k : κ) (v : ν)
    (l : List (κ × ν)) : alookup (dictInsert k v l) k = some v := by
  induction l with
  | nil => simp [dictInsert, alookup]
  | cons p rest ih =>
    by_cases hk : p.1 = k
    · simp [dictInsert, hk, alookup]
    · simp [dictInsert, hk, alookup, ih]

theorem alookup_dictInsert_ne {κ ν : Type} [DecidableEq κ] {k k' : κ} (v : ν)
    (l : List (κ × ν)) (h : k ≠ k') : alookup (dictInsert k v l) k' = alookup l k' := by
  induction l with
  | nil => simp [dictInsert, alookup, h]
  | cons p rest ih =>
    by_cases hk : p.1 = k
    · simp [dictInsert, hk, alookup, h]
    · simp [dictInsert, hk, alookup, ih]

theorem alookup_none_iff {κ ν : Type} [DecidableEq κ] (l : List (κ × ν)) (k : κ) :
    alookup l k = none ↔ k ∉ l.map Prod.fst := by
  induction l with
  | nil => simp [alookup]
  | cons p rest ih =>
    by_cases hk : p.1 = k
    · simp [alookup, hk]
    · simp [alookup, hk, ih, Ne.symm hk]

theorem alookup_isSome_iff {κ ν : Type} [DecidableEq κ] (l : List (κ × ν)) (k : κ) :
    (alookup l k).isSome ↔ k ∈ l.map Prod.fst := by
  rw [Option.isSome_iff_ne_none, ne_eq, alookup_none_iff, not_not]

/-! ## Stable-sort lemmas -/

theorem sinsert_perm {α κ : Type} [LinearOrder κ] (x : α × κ) (l : List (α × κ)) :
    (sinsert x l).Perm (x :: l) := by
  induction l with
  | nil => simp [sinsert]
  | cons y ys ih =>
    by_cases h : x.2 ≤ y.2
    · simp [sinsert, h]
    · simp only [sinsert, h, if_neg, not_false_iff]
      exact (ih.cons y).trans (List.Perm.swap x y ys)

theorem ssort_perm {α κ : Type} [LinearOrder κ] (l : List (α × κ)) : (ssort l).Perm l := by
  induction l with
  | nil => simp [ssort]
  | cons x xs ih => exact (sinsert_perm x (ssort xs)).trans (ih.cons x)

theorem sinsert_pairwise {α κ : Type} [LinearOrder κ] (x : α × κ) {l : List (α × κ)}
    (h : l.Pairwise (fun a b => a.2 ≤ b.2)) :
    (sinsert x l).Pairwise (fun a b => a.2 ≤ b.2) := by
  induction l with
  | nil => simp [sinsert]
  | cons y ys ih =>
    rcases List.pairwise_cons.mp h with ⟨hy, hys⟩
    by_cases hle : x.2 ≤ y.2
    · rw [show sinsert x (y :: ys) = x :: y :: ys by simp [sinsert, hle]]
      refine List.pairwise_cons.mpr ⟨?_, h⟩
      intro z hz
      rcases List.mem_cons.mp hz with rfl | hz
      · exact hle
      · exact hle.trans (hy z hz)
    · rw [show sinsert x (y :: ys) = y :: sinsert x ys by simp [sinsert, hle]]
      refine List.pairwise_cons.mpr ⟨?_, ih hys⟩
      intro z hz
      rcases List.mem_cons.mp ((sinsert_perm x ys).mem_iff.mp hz) with rfl | h'
      · exact (lt_of_not_le hle).le
      · exact hy z h'
theorem ssort_pairwise {α κ : Type} [LinearOrder κ] (l : List (α × κ)) :
    (ssort l).Pairwise (fun a b => a.2 ≤ b.2) := by
  induction l with
  | nil => simp [ssort]
  | cons x xs ih => exact sinsert_pairwise x ih

theorem sinsert_filter_eq {α κ : Type} [LinearOrder κ] (x : α × κ) (l : List (α × κ))
    {k : κ} (hx : x.2 = k) :
    (sinsert x l).filter (fun p => decide (p.2 = k)) =
      x :: l.filter (fun p => decide (p.2 = k)) := by
  induction l with
  | nil => simp [sinsert, hx]
  | cons y ys ih =>
    by_cases hle : x.2 ≤ y.2
    · rw [show sinsert x (y :: ys) = x :: y :: ys by simp [sinsert, hle]]
      simp [List.filter, hx]
    · have hyk : ¬ y.2 = k := by
        intro hyk
        exact hle (le_of_eq (hx.trans hyk.symm))
      rw [show sinsert x (y :: ys) = y :: sinsert x ys by simp [sinsert, hle]]
      simp [List.filter, hyk, ih]

theorem sinsert_filter_ne {α κ : Type} [LinearOrder κ] (x : α × κ) (l : List (α × κ))
    {k : κ} (hx : ¬ x.2 = k) :
    (sinsert x l).filter (fun p => decide (p.2 = k)) =
      l.filter (fun p => decide (p.2 = k)) := by
  induction l with
  | nil => simp [sinsert, hx]
  | cons y ys ih =>
    by_cases hle : x.2 ≤ y.2
    · simp [sinsert, hle, hx]
    · rw [show sinsert x (y :: ys) = y :: sinsert x ys by simp [sinsert, hle]]
      by_cases hyk : y.2 = k <;> simp [List.filter, hyk, ih]

theorem ssort_filter {α κ : Type} [LinearOrder κ] (l : List (α × κ)) (k : κ) :
    (ssort l).filter (fun p => decide (p.2 = k)) = l.filter (fun p => decide (p.2 = k)) := by
  induction l with
  | nil => simp [ssort]
  | cons x xs ih =>
    by_cases hx : x.2 = k
    · rw [show ssort (x :: xs) = sinsert x (ssort xs) from rfl,
        sinsert_filter_eq x (ssort xs) hx, ih]
      simp [List.filter, hx]
    · rw [show ssort (x :: xs) = sinsert x (ssort xs) from rfl,
        sinsert_filter_ne x (ssort xs) hx, ih]
      simp [List.filter, hx]

/-! ## Decoration lemmas -/

theorem adecorate_ok {α κ ε : Type} [DecidableEq α] {err : ε} {table : List (α × κ)} :
    ∀ {l : List α} {ps : List (α × κ)}, adecorate err table l = .ok ps →
      ps.map Prod.fst = l ∧ ∀ pr ∈ ps, alookup table pr.1 = some pr.2 := by
  intro l
  induction l with
  | nil =>
    intro ps h
    simp only [adecorate] at h
    cases h
    simp
  | cons a rest ih =>
    intro ps h
    simp only [adecorate] at h
    rcases hl : alookup table a with _ | v <;> rw [hl] at h
    · cases h
    · rcases hr : adecorate err table rest with e | ps' <;> rw [hr] at h
      · cases h
      · cases h
        rcases ih hr with ⟨h1, h2⟩
        refine ⟨by simp [h1], ?_⟩
        intro pr hpr
        rcases List.mem_cons.mp hpr with rfl | hpr
        · exact hl
        · exact h2 pr hpr

theorem adecorate_total {α κ ε : Type} [DecidableEq α] (err : ε) (table : List (α × κ)) :
    ∀ l : List α, (∀ a ∈ l, (alookup table a).isSome) →
      ∃ ps, adecorate err table l = .ok ps := by
  intro l
  induction l with
  | nil => exact fun _ => ⟨[], rfl⟩
  | cons a rest ih =>
    intro h
    rcases Option.isSome_iff_exists.mp (h a (List.mem_cons_self a rest)) with ⟨v, hv⟩
    rcases ih (fun b hb => h b (List.mem_cons_of_mem a hb)) with ⟨ps', hps'⟩
    exact ⟨(a, v) :: ps', by simp [adecorate, hv, hps']⟩

/-! ## First-minimum lemma for Python `min(..., key=...)` -/

theorem min_by_key_first {α : Type} (key : α → Nat) :
    ∀ (l : List α) (b : α), ∃ pre post,
      b :: l = pre ++ min_by_key key b l :: post ∧
      (∀ y ∈ pre, key (min_by_key key b l) < key y) ∧
      (∀ y ∈ b :: l, key (min_by_key key b l) ≤ key y) := by
  intro l
  induction l with
  | nil =>
    intro b
    refine ⟨[], [], by simp [min_by_key], by simp, ?_⟩
    intro y hy
    rcases List.mem_cons.mp hy with rfl | h
    · simp [min_by_key]
    · cases h
  | cons x xs ih =>
    intro b
    by_cases hlt : key x < key b
    · have hb' : min_by_key key b (x :: xs) = min_by_key key x xs := by
        simp [min_by_key, hlt]
      rcases ih x with ⟨pre', post', hdec, hpre, hmin⟩
      refine ⟨b :: pre', post', ?_, ?_, ?_⟩
      · rw [hb', List.cons_append]
        exact congrArg (List.cons b) hdec
      · intro y hy
        rcases List.mem_cons.mp hy with rfl | hy
        · exact hb' ▸ lt_of_le_of_lt (hmin x (List.mem_cons_self x xs)) hlt
        · exact hb' ▸ hpre y hy
      · intro y hy
        rcases List.mem_cons.mp hy with rfl | hy
        · exact hb' ▸ le_of_lt (lt_of_le_of_lt (hmin x (List.mem_cons_self x xs)) hlt)
        · exact hb' ▸ hmin y hy
    · have hb' : min_by_key key b (x :: xs) = min_by_key key b xs := by
        simp [min_by_key, hlt]
      rcases ih b with ⟨pre', post', hdec, hpre, hmin⟩
      rcases pre' with _ | ⟨p0, pre''⟩
      · have hbmin : min_by_key key b xs = b := by
          have := congrArg (fun t => t.head?) hdec
          simpa using this.symm
        refine ⟨[], x :: xs, by simp [hb', hbmin], by simp, ?_⟩
        intro y hy
        rw [hb', hbmin]
        rcases List.mem_cons.mp hy with rfl | hy
        · exact le_rfl
        · rcases List.mem_cons.mp hy with rfl | hy
          · exact (hbmin ▸ hmin b (List.mem_cons_self b xs)).trans (not_lt.mp hlt)
          · exact hbmin ▸ hmin y (List.mem_cons_of_mem b hy)
      · have hp0 : p0 = b := by
          have := congrArg (fun t => t.head?) hdec
          simpa using this.symm
        rw [hp0] at hdec hpre
        have hxs : xs = pre'' ++ min_by_key key b xs :: post' := by
          have := congrArg List.tail hdec
          simpa using this
        refine ⟨b :: x :: pre'', post', ?_, ?_, ?_⟩
        · rw [hb', List.cons_append, List.cons_append]
          exact congrArg (List.cons b) (congrArg (List.cons x) hxs)
        · intro y hy
          rw [hb']
          rcases List.mem_cons.mp hy with hy0 | hy'
          · rw [hy0]
            exact hpre b (List.mem_cons_self b pre'')
          · rcases List.mem_cons.mp hy' with hy1 | hy2
            · rw [hy1]
              exact lt_of_lt_of_le (hpre b (List.mem_cons_self b pre'')) (not_lt.mp hlt)
            · exact hpre y (List.mem_cons_of_mem b hy2)
        · intro y hy
          rw [hb']
          rcases List.mem_cons.mp hy with hy0 | hy'
          · rw [hy0]
            exact hmin b (List.mem_cons_self b xs)
          · rcases List.mem_cons.mp hy' with hy1 | hy2
            · rw [hy1]
              exact (hmin b (List.mem_cons_self b xs)).trans (not_lt.mp hlt)
            · exact hmin y (List.mem_cons_of_mem b hy2)

/-! ## The shared-iterator subsequence test -/

theorem iterFind_none_iff (st : List String) (x : String) :
    iterFind st x = none ↔ x ∉ st := by
  induction st with
  | nil => simp [iterFind]
  | cons y ys ih =>
    by_cases h : y = x
    · simp [iterFind, h]
    · simp [iterFind, h, ih, Ne.symm h]

theorem iterFind_decomp {st : List String} {x : String} {st' : List String}
    (h : iterFind st x = some st') : ∃ pre, st = pre ++ x :: st' ∧ x ∉ pre := by
  induction st generalizing st' with
  | nil => simp [iterFind] at h
  | cons y ys ih =>
    by_cases hy : y = x
    · rw [show iterFind (y :: ys) x = some ys by simp [iterFind, hy]] at h
      cases h
      exact ⟨[], by simp [hy], by simp⟩
    · simp only [iterFind, hy, if_neg, not_false_iff] at h
      rcases ih h with ⟨pre, hdec, hmem⟩
      refine ⟨y :: pre, by simp [hdec], ?_⟩
      simp only [List.mem_cons, not_or]
      exact ⟨fun hxy => hy hxy.symm, hmem⟩

theorem isSubseqGo_sublist : ∀ (target st : List String),
    isSubseqGo st target = true → target.Sublist st := by
  intro target
  induction target with
  | nil => exact fun st _ => List.nil_sublist st
  | cons x xs ih =>
    intro st h
    rcases hf : iterFind st x with _ | st'
    · simp [isSubseqGo, hf] at h
    · simp only [isSubseqGo, hf] at h
      rcases iterFind_decomp hf with ⟨pre, hdec, _⟩
      rw [hdec]
      have h1 : (x :: xs).Sublist (x :: st') := List.cons_sublist_cons.mpr (ih st' h)
      exact h1.trans (List.sublist_append_right pre (x :: st'))

theorem sublist_head_skip {x : String} {xs pre st' : List String} (hx : x ∉ pre)
    (h : (x :: xs).Sublist (pre ++ x :: st')) : xs.Sublist st' := by
  induction pre with
  | nil =>
    have h' : (x :: xs).Sublist (x :: st') := by simpa using h
    exact List.cons_sublist_cons.mp h'
  | cons p pre' ih =>
    have hne : x ≠ p := by
      intro hxp
      exact hx (by simp [hxp])
    cases h with
    | cons _ h' => exact ih (fun hm => hx (List.mem_cons_of_mem p hm)) h'
    | cons₂ _ h' => exact absurd rfl hne

theorem sublist_isSubseqGo : ∀ (target st : List String),
    target.Sublist st → isSubseqGo st target = true := by
  intro target
  induction target with
  | nil => intro st _; rfl
  | cons x xs ih =>
    intro st h
    have hmem : x ∈ st := h.subset (List.mem_cons_self x xs)
    rcases hf : iterFind st x with _ | st'
    · exact absurd hmem ((iterFind_none_iff st x).mp hf)
    · rcases iterFind_decomp hf with ⟨pre, hdec, hpre⟩
      have hxs : xs.Sublist st' := sublist_head_skip hpre (hdec ▸ h)
      simp [isSubseqGo, hf, ih st' hxs]

theorem is_subsequence_iff_sublist (outer target : List String) :
    is_subsequence outer target = true ↔ target.Sublist outer :=
  ⟨isSubseqGo_sublist target outer, sublist_isSubseqGo target outer⟩

/-- C2: a registered multi-tag rule fires exactly when its source tags
occur as an order-preserving (not necessarily contiguous) subsequence of
the current working list; when it fires, its target tag is emitted unless
it is the drop marker (`None`), and every working-list element whose value
belongs to the rule's source tuple is removed (all occurrences, by value),
so those tags are never seen by the single-tag step (which, in
`TagMap.collect`, runs on the multi-phase working list). -/
theorem multi_rule_subsequence_semantics :
    (∀ outer target : List String,
      is_subsequence outer target = true ↔ target.Sublist outer)
    ∧ (∀ (w : List String) (acc : List PVal) (ts : List String) (ps : PVal) (prec : Int),
        ts.Sublist w →
          multi_step (w, acc) (ts, ps, prec) =
            (w.filter (fun x => !(ts.contains x)),
             acc ++ (if ps = PVal.none_ then [] else [ps])))
    ∧ (∀ (w : List String) (acc : List PVal) (ts : List String) (ps : PVal) (prec : Int),
        ¬ ts.Sublist w → multi_step (w, acc) (ts, ps, prec) = (w, acc)) := by
  refine ⟨is_subsequence_iff_sublist, ?_, ?_⟩
  · intro w acc ts ps prec h
    have hs : is_subsequence w ts = true := (is_subsequence_iff_sublist w ts).mpr h
    simp [multi_step, hs]
  · intro w acc ts ps prec h
    have hs : ¬ is_subsequence w ts = true := fun hc =>
      h ((is_subsequence_iff_sublist w ts).mp hc)
    simp [multi_step, hs]

/-- Witness for C2 at a concrete non-adjacent match: the rule
`("+Obv", "+Pl")` fires on the working list `["x", "+Obv", "y", "+Pl"]`,
emits `"obv-pl"` and removes both source tags. -/
theorem multi_rule_subsequence_semantics_witness :
    multi_step (["x", "+Obv", "y", "+Pl"], []) (["+Obv", "+Pl"], PVal.str "obv-pl", 1)
      = (["x", "y"], [PVal.str "obv-pl"]) := by
  have h := multi_rule_subsequence_semantics.2.1 ["x", "+Obv", "y", "+Pl"] []
    ["+Obv", "+Pl"] (PVal.str "obv-pl") 1
    ((multi_rule_subsequence_semantics.1 ["x", "+Obv", "y", "+Pl"] ["+Obv", "+Pl"]).mp rfl)
  rw [h]
  rfl

/-! ## TagMap: default injection, unknown tags, output order -/

theorem defaults_phase_eq (dl : List (Int × PVal)) (used : List Int) :
    ∀ acc : List PVal,
      defaults_phase dl used acc =
        acc ++ (dl.filter (fun pd => !(decide (pd.1 ∈ used)))).map Prod.snd := by
  induction dl with
  | nil => intro acc; simp [defaults_phase]
  | cons pd rest ih =>
    intro acc
    by_cases hp : pd.1 ∈ used
    · rw [show defaults_phase (pd :: rest) used acc = defaults_phase rest used acc by
        cases pd; simp [defaults_phase, hp]]
      simp [List.filter, hp, ih]
    · rw [show defaults_phase (pd :: rest) used acc
          = defaults_phase rest used (acc ++ [pd.2]) by
        cases pd; simp [defaults_phase, hp]]
      simp [List.filter, hp, ih]

/-- The compiled tables of the spec's four-rule example tag map. -/
def tm3v : TagMap :=
  { multi_mappings := [(["+Obv", "+Pl"], PVal.str "obv-pl", 1)],
    tag_mapping := [("+Fut", PVal.str "future"), ("+Cond", PVal.str "conditional")],
    precedences := [(PVal.str "T0", 0), (PVal.str "future", 0),
                    (PVal.str "conditional", 0), (PVal.str "obv-pl", 1)],
    defaults_by_precedence := [(0, PVal.str "T0")] }

/-- C3: on the four-rule example map, `map_tags([]) = ["T0"]`,
`map_tags(["+Fut"]) = ["future"]`, `map_tags(["+Obv","+Pl"]) =
["T0","obv-pl"]`; and in general the default of a precedence is appended
exactly when no collected output tag has that precedence (the default
loop equals a filter on unrepresented precedences). -/
theorem tagmap_example_defaults :
    (∀ (dl : List (Int × PVal)) (used : List Int) (acc : List PVal),
      defaults_phase dl used acc =
        acc ++ (dl.filter (fun pd => !(decide (pd.1 ∈ used)))).map Prod.snd)
    ∧ TagMap.make defs3 = .ok tm3v
    ∧ tm3v.map_tags [] = .ok [PVal.str "T0"]
    ∧ tm3v.map_tags ["+Fut"] = .ok [PVal.str "future"]
    ∧ tm3v.map_tags ["+Obv", "+Pl"] = .ok [PVal.str "T0", PVal.str "obv-pl"] :=
  ⟨fun dl used acc => defaults_phase_eq dl used acc, rfl, rfl, rfl, rfl⟩

theorem singles_phase_err (tm : TagMap) (t : String) (post : List String)
    (ht : alookup tm.tag_mapping t = none) :
    ∀ (pre : List String) (acc : List PVal),
      (∀ x ∈ pre, (alookup tm.tag_mapping x).isSome) →
      singles_phase tm (pre ++ t :: post) acc = .error (.unknownTag t) := by
  intro pre
  induction pre with
  | nil =>
    intro acc _
    simp [singles_phase, ht]
  | cons x rest ih =>
    intro acc hpre
    rcases Option.isSome_iff_exists.mp (hpre x (List.mem_cons_self x rest)) with ⟨pv, hpv⟩
    rw [show (x :: rest) ++ t :: post = x :: (rest ++ t :: post) by simp]
    simp only [singles_phase, hpv]
    exact ih _ (fun y hy => hpre y (List.mem_cons_of_mem x hy))

theorem map_tags_of_collect_error {tm : TagMap} {input : List String} {e : MapErr}
    (h : tm.collect input = .error e) : tm.map_tags input = .error e := by
  simp [TagMap.map_tags, h]

/-- C4: after multi-tag consumption, a remaining tag with no entry in the
single-tag mapping makes `map_tags` fail with `UnknownTagError` carrying
the first such offending tag, and the error propagates to the caller; in
particular the example map (which has no rule for `"+Unknown"`) fails on
`["+Unknown"]`, identifying `"+Unknown"`. -/
theorem unknown_tag_error :
    (∀ (tm : TagMap) (input pre post : List String) (t : String),
      (multi_phase tm.multi_mappings (input, [])).1 = pre ++ t :: post →
      (∀ x ∈ pre, (alookup tm.tag_mapping x).isSome) →
      alookup tm.tag_mapping t = none →
      tm.map_tags input = .error (.unknownTag t))
    ∧ TagMap.make defs3 = .ok tm3v
    ∧ tm3v.map_tags ["+Unknown"] = .error (.unknownTag "+Unknown") := by
  refine ⟨?_, rfl, rfl⟩
  intro tm input pre post t hmp hpre ht
  have hs := singles_phase_err tm t post ht pre
    (multi_phase tm.multi_mappings (input, [])).2 hpre
  apply map_tags_of_collect_error
  simp only [TagMap.collect]
  rw [hmp, hs]

/-- Witness for C4's general part: the one-rule map `tmW` (no entry for
`"+B"`) fails on input `["+B"]` with the unknown-tag error. -/
theorem unknown_tag_error_witness :
    TagMap.map_tags tmW ["+B"] = .error (.unknownTag "+B") :=
  unknown_tag_error.1 tmW ["+B"] [] [] "+B" rfl (by intro x hx; cases hx) rfl

theorem map_tags_ok_inversion {tm : TagMap} {input : List String} {out : List PVal}
    (h : tm.map_tags input = .ok out) :
    ∃ c pairs, tm.collect input = .ok c ∧
      adecorate MapErr.keyError tm.precedences c = .ok pairs ∧
      out = (ssort pairs).map Prod.fst := by
  rcases hc : tm.collect input with e | c
  · simp [TagMap.map_tags, hc] at h
  · rcases hd : adecorate MapErr.keyError tm.precedences c with e | pairs
    · simp [TagMap.map_tags, hc, hd] at h
    · simp only [TagMap.map_tags, hc, hd, Except.ok.injEq] at h
      exact ⟨c, pairs, rfl, hd, h.symm⟩

/-- C1: whenever `map_tags` succeeds, its output is sorted by precedence
in non-decreasing order, and within each precedence the output keeps the
relative order of the collected (pre-sort) list built by
`TagMap.collect` — multi-tag rule outputs first in registration order,
then single-tag outputs in input order, then injected defaults in
registration order. -/
theorem tagmap_output_sorted_stable (tm : TagMap) (input : List String) (out : List PVal)
    (h : tm.map_tags input = .ok out) :
    ∃ c, tm.collect input = .ok c ∧
      out.Pairwise (fun a b => ∀ pa pb : Int,
        alookup tm.precedences a = some pa → alookup tm.precedences b = some pb → pa ≤ pb) ∧
      ∀ k : Int,
        out.filter (fun t => decide (alookup tm.precedences t = some k)) =
          c.filter (fun t => decide (alookup tm.precedences t = some k)) := by
  rcases map_tags_ok_inversion h with ⟨c, pairs, hc, hdec, hout⟩
  rcases adecorate_ok hdec with ⟨hmap, hmem⟩
  have hmem' : ∀ pr ∈ ssort pairs, alookup tm.precedences pr.1 = some pr.2 :=
    fun pr hpr => hmem pr ((ssort_perm pairs).mem_iff.mp hpr)
  refine ⟨c, hc, ?_, ?_⟩
  · subst hout
    rw [List.pairwise_map]
    refine List.Pairwise.imp_of_mem ?_ (ssort_pairwise pairs)
    intro a b ha hb hle pa pb hpa hpb
    have hpa' : pa = a.2 := by
      have := (hmem' a ha).symm.trans hpa
      exact (Option.some.inj this).symm
    have hpb' : pb = b.2 := by
      have := (hmem' b hb).symm.trans hpb
      exact (Option.some.inj this).symm
    rw [hpa', hpb']
    exact hle
  · intro k
    subst hout
    rw [List.filter_map, ← hmap, List.filter_map]
    have hcongr : ∀ (l : List (PVal × Int)),
        (∀ pr ∈ l, alookup tm.precedences pr.1 = some pr.2) →
        l.filter ((fun t => decide (alookup tm.precedences t = some k)) ∘ Prod.fst) =
          l.filter (fun pr => decide (pr.2 = k)) := by
      intro l hl
      apply List.filter_congr
      intro pr hpr
      simp only [Function.comp_apply, hl pr hpr, Option.some.injEq]
    rw [hcongr (ssort pairs) hmem', hcongr pairs hmem, ssort_filter]

/-- Witness for C1: on the one-rule map `tmW` and input `["+A"]`,
`map_tags` succeeds, so the output is precedence-sorted and stable. -/
theorem tagmap_output_sorted_stable_witness :
    ∃ c, TagMap.collect tmW ["+A"] = .ok c ∧
      (List.Pairwise (fun a b => ∀ pa pb : Int,
        alookup tmW.precedences a = some pa → alookup tmW.precedences b = some pb → pa ≤ pb)
        [PVal.str "a"]) ∧
      ∀ k : Int,
        (List.filter (fun t => decide (alookup tmW.precedences t = some k)) [PVal.str "a"]) =
          c.filter (fun t => decide (alookup tmW.precedences t = some k)) :=
  tagmap_output_sorted_stable tmW ["+A"] [PVal.str "a"] rfl

/-! ## TagMap construction failures -/

theorem registerPrec_ok_fields {s : TagMap} {p : PVal} {prec : Int} {s' : TagMap}
    (h : registerPrec s p prec = .ok s') :
    s'.defaults_by_precedence = s.defaults_by_precedence ∧
    s'.tag_mapping = s.tag_mapping ∧ s'.multi_mappings = s.multi_mappings := by
  by_cases hp : p = PVal.none_
  · simp only [registerPrec, hp, if_pos] at h
    cases h
    exact ⟨rfl, rfl, rfl⟩
  · simp only [registerPrec, hp, if_neg, not_false_iff] at h
    rcases hq : alookup s.precedences p with _ | q <;> rw [hq] at h
    · cases h
      exact ⟨rfl, rfl, rfl⟩
    · by_cases hne : prec ≠ q
      · simp [hne] at h
      · simp only [hne, if_neg, not_false_iff] at h
        cases h
        exact ⟨rfl, rfl, rfl⟩

theorem registerPrec_ok_prec_mono {s : TagMap} {p : PVal} {prec : Int} {s' : TagMap}
    {v : PVal} {r : Int} (h : registerPrec s p prec = .ok s')
    (hv : alookup s.precedences v = some r) : alookup s'.precedences v = some r := by
  by_cases hp : p = PVal.none_
  · simp only [registerPrec, hp, if_pos] at h
    cases h
    exact hv
  · simp only [registerPrec, hp, if_neg, not_false_iff] at h
    rcases hq : alookup s.precedences p with _ | q <;> rw [hq] at h
    · cases h
      exact alookup_append_some _ hv
    · by_cases hne : prec ≠ q
      · simp [hne] at h
      · simp only [hne, if_neg, not_false_iff] at h
        cases h
        exact hv

theorem registerPrec_reg {s : TagMap} {p : PVal} {prec : Int} {s' : TagMap}
    (h : registerPrec s p prec = .ok s') (hp : p ≠ PVal.none_) :
    alookup s'.precedences p = some prec := by
  simp only [registerPrec, hp, if_neg, not_false_iff] at h
  rcases hq : alookup s.precedences p with _ | q <;> rw [hq] at h
  · cases h
    rw [alookup_append_none _ hq]
    simp [alookup]
  · by_cases hne : prec ≠ q
    · simp [hne] at h
    · simp only [hne, if_neg, not_false_iff] at h
      cases h
      rw [hq, not_not.mp hne]

theorem registerPrec_conflict {s : TagMap} {p : PVal} {prec q : Int}
    (hp : p ≠ PVal.none_) (hq : alookup s.precedences p = some q) (hne : prec ≠ q) :
    registerPrec s p prec = .error .conflictingPrecedences := by
  simp [registerPrec, hp, hq, hne]

theorem processDef_preserves_default {s : TagMap} {d : TagDef} {s' : TagMap} {p : Int}
    (h : processDef s d = .ok s')
    (hp : (alookup s.defaults_by_precedence p).isSome) :
    (alookup s'.defaults_by_precedence p).isSome := by
  obtain ⟨w, ps, prec⟩ := d
  cases w with
  | multi ts =>
    by_cases hc : ps = PVal.copySent
    · simp [processDef, hc] at h
    · simp only [processDef, hc, if_neg, not_false_iff] at h
      rw [(registerPrec_ok_fields h).1]
      exact hp
  | default_ =>
    by_cases hd : (alookup s.defaults_by_precedence prec).isSome
    · simp [processDef, hd] at h
    · simp only [processDef, hd, if_neg, not_false_iff, Bool.false_eq_true] at h
      rw [(registerPrec_ok_fields h).1]
      by_cases hpp : prec = p
      · rw [← hpp, alookup_dictInsert_self]
        rfl
      · rw [alookup_dictInsert_ne _ _ hpp]
        exact hp
  | single t =>
    cases ps with
    | copySent =>
      by_cases hst : pyStarts t "+"
      · simp only [processDef, hst, if_pos] at h
        rw [(registerPrec_ok_fields h).1]
        exact hp
      · simp [processDef, hst] at h
    | str u =>
      simp only [processDef] at h
      rw [(registerPrec_ok_fields h).1]
      exact hp
    | none_ =>
      simp only [processDef] at h
      rw [(registerPrec_ok_fields h).1]
      exact hp

theorem processDef_preserves_prec {s : TagMap} {d : TagDef} {s' : TagMap}
    {v : PVal} {r : Int} (h : processDef s d = .ok s')
    (hv : alookup s.precedences v = some r) : alookup s'.precedences v = some r := by
  obtain ⟨w, ps, prec⟩ := d
  cases w with
  | multi ts =>
    by_cases hc : ps = PVal.copySent
    · simp [processDef, hc] at h
    · simp only [processDef, hc, if_neg, not_false_iff] at h
      exact registerPrec_ok_prec_mono h hv
  | default_ =>
    by_cases hd : (alookup s.defaults_by_precedence prec).isSome
    · simp [processDef, hd] at h
    · simp only [processDef, hd, if_neg, not_false_iff, Bool.false_eq_true] at h
      exact registerPrec_ok_prec_mono h hv
  | single t =>
    cases ps with
    | copySent =>
      by_cases hst : pyStarts t "+"
      · simp only [processDef, hst, if_pos] at h
        exact registerPrec_ok_prec_mono h hv
      · simp [processDef, hst] at h
    | str u =>
      simp only [processDef] at h
      exact registerPrec_ok_prec_mono h hv
    | none_ =>
      simp only [processDef] at h
      exact registerPrec_ok_prec_mono h hv

theorem processDef_default_creates {s : TagMap} {ps : PVal} {prec : Int} {s' : TagMap}
    (h : processDef s (WSpec.default_, ps, prec) = .ok s') :
    (alookup s'.defaults_by_precedence prec).isSome := by
  by_cases hd : (alookup s.defaults_by_precedence prec).isSome
  · simp [processDef, hd] at h
  · simp only [processDef, hd, if_neg, not_false_iff, Bool.false_eq_true] at h
    rw [(registerPrec_ok_fields h).1, alookup_dictInsert_self]
    rfl

theorem processDef_default_trigger {s : TagMap} (ps : PVal) (prec : Int)
    (hp : (alookup s.defaults_by_precedence prec).isSome) :
    processDef s (WSpec.default_, ps, prec) = .error .multipleDefaults := by
  simp [processDef, hp]

theorem processDef_regTarget_creates {s : TagMap} {d : TagDef} {s' : TagMap} {v : PVal}
    (h : processDef s d = .ok s') (hv : regTarget d = some v) :
    alookup s'.precedences v = some d.2.2 := by
  obtain ⟨w, ps, prec⟩ := d
  cases w with
  | multi ts =>
    by_cases hc : ps = PVal.copySent
    · simp [processDef, hc] at h
    · by_cases hn : ps = PVal.none_
      · simp [regTarget, hc, hn] at hv
      · simp only [regTarget, hc, hn, if_neg, not_false_iff, Option.some.injEq] at hv
        simp only [processDef, hc, if_neg, not_false_iff] at h
        rw [← hv]
        exact registerPrec_reg h hn
  | default_ =>
    by_cases hn : ps = PVal.none_
    · simp [regTarget, hn] at hv
    · simp only [regTarget, hn, if_neg, not_false_iff, Option.some.injEq] at hv
      by_cases hd : (alookup s.defaults_by_precedence prec).isSome
      · simp [processDef, hd] at h
      · simp only [processDef, hd, if_neg, not_false_iff, Bool.false_eq_true] at h
        rw [← hv]
        exact registerPrec_reg h hn
  | single t =>
    cases ps with
    | copySent =>
      by_cases hst : pyStarts t "+"
      · simp only [regTarget, hst, if_pos, Option.some.injEq] at hv
        simp only [processDef, hst, if_pos] at h
        rw [← hv]
        exact registerPrec_reg h (by intro hx; cases hx)
      · simp [regTarget, hst] at hv
    | str u =>
      have hv' : some (PVal.str u) = some v := by simpa [regTarget] using hv
      cases hv'
      simp only [processDef] at h
      exact registerPrec_reg h (by intro hx; cases hx)
    | none_ =>
      simp [regTarget] at hv

theorem processDef_conflict_trigger {s : TagMap} {d : TagDef} {v : PVal} {q : Int}
    (hv : regTarget d = some v) (hq : alookup s.precedences v = some q)
    (hne : d.2.2 ≠ q) : ∃ e, processDef s d = .error e := by
  obtain ⟨w, ps, prec⟩ := d
  simp only at hne
  cases w with
  | multi ts =>
    by_cases hc : ps = PVal.copySent
    · exact ⟨.copyWithMulti, by simp [processDef, hc]⟩
    · by_cases hn : ps = PVal.none_
      · simp [regTarget, hc, hn] at hv
      · have hv' : some ps = some v := by simpa [regTarget, hc, hn] using hv
        cases hv'
        refine ⟨.conflictingPrecedences, ?_⟩
        simp only [processDef, hc, if_neg, not_false_iff]
        exact registerPrec_conflict hn hq hne
  | default_ =>
    by_cases hd : (alookup s.defaults_by_precedence prec).isSome
    · exact ⟨.multipleDefaults, by simp [processDef, hd]⟩
    · by_cases hn : ps = PVal.none_
      · simp [regTarget, hn] at hv
      · have hv' : some ps = some v := by simpa [regTarget, hn] using hv
        cases hv'
        refine ⟨.conflictingPrecedences, ?_⟩
        simp only [processDef, hd, if_neg, not_false_iff, Bool.false_eq_true]
        exact registerPrec_conflict hn hq hne
  | single t =>
    cases ps with
    | copySent =>
      by_cases hst : pyStarts t "+"
      · have hv' : some (PVal.str (t.drop 1 ++ "+")) = some v := by
          simpa [regTarget, hst] using hv
        cases hv'
        refine ⟨.conflictingPrecedences, ?_⟩
        simp only [processDef, hst, if_pos]
        exact registerPrec_conflict (by intro hx; cases hx) hq hne
      · simp [regTarget, hst] at hv
    | str u =>
      have hv' : some (PVal.str u) = some v := by simpa [regTarget] using hv
      cases hv'
      refine ⟨.conflictingPrecedences, ?_⟩
      simp only [processDef]
      exact registerPrec_conflict (by intro hx; cases hx) hq hne
    | none_ =>
      simp [regTarget] at hv

theorem buildTagMap_append_error {l1 : List TagDef} (l2 : List TagDef) {s : TagMap}
    {e : CfgErr} (h : buildTagMap s l1 = .error e) :
    buildTagMap s (l1 ++ l2) = .error e := by
  induction l1 generalizing s with
  | nil => simp [buildTagMap] at h
  | cons d rest ih =>
    rcases hp : processDef s d with e' | s'
    · simp only [buildTagMap, hp] at h ⊢
      exact h
    · simp only [buildTagMap, hp] at h ⊢
      exact ih h

theorem buildTagMap_append_ok {l1 : List TagDef} (l2 : List TagDef) {s s' : TagMap}
    (h : buildTagMap s l1 = .ok s') :
    buildTagMap s (l1 ++ l2) = buildTagMap s' l2 := by
  induction l1 generalizing s with
  | nil =>
    simp only [buildTagMap] at h
    cases h
    simp
  | cons d rest ih =>
    rcases hp : processDef s d with e' | s'' <;> simp only [buildTagMap, hp] at h ⊢
    · cases h
    · exact ih h

theorem buildTagMap_fails (P : TagMap → Prop)
    (hpres : ∀ s d s', processDef s d = .ok s' → P s → P s')
    (d : TagDef) (htrig : ∀ s, P s → ∃ e, processDef s d = .error e) :
    ∀ (mid post : List TagDef) (s : TagMap), P s →
      ∃ e, buildTagMap s (mid ++ d :: post) = .error e := by
  intro mid
  induction mid with
  | nil =>
    intro post s hP
    rcases htrig s hP with ⟨e, he⟩
    exact ⟨e, by simp [buildTagMap, he]⟩
  | cons x rest ih =>
    intro post s hP
    rcases hp : processDef s x with e' | s'
    · exact ⟨e', by simp [buildTagMap, hp]⟩
    · rcases ih post s' (hpres s x s' hp hP) with ⟨e, he⟩
      exact ⟨e, by simp only [List.cons_append, buildTagMap, hp]; exact he⟩

/-- C5: `TagMap` construction raises, before any `map_tags` call is
possible, on every definition list containing (1) two `DEFAULT` rules
with the same precedence, (2) a `COPY_TAG_NAME` target paired with a
multi-tag source, or (3) two rules assigning the same target tag two
different precedences. -/
theorem tagmap_construction_failures :
    (∀ (pre mid post : List TagDef) (ps1 ps2 : PVal) (p : Int),
      ∃ e, TagMap.make
        (pre ++ (WSpec.default_, ps1, p) :: mid ++ (WSpec.default_, ps2, p) :: post)
        = .error e)
    ∧ (∀ (pre post : List TagDef) (ts : List String) (p : Int),
      ∃ e, TagMap.make (pre ++ (WSpec.multi ts, PVal.copySent, p) :: post) = .error e)
    ∧ (∀ (pre mid post : List TagDef) (d1 d2 : TagDef) (v : PVal),
      regTarget d1 = some v → regTarget d2 = some v → d1.2.2 ≠ d2.2.2 →
      ∃ e, TagMap.make (pre ++ d1 :: mid ++ d2 :: post) = .error e) := by
  refine ⟨?_, ?_, ?_⟩
  · intro pre mid post ps1 ps2 p
    simp only [TagMap.make]
    rw [show pre ++ (WSpec.default_, ps1, p) :: mid ++ (WSpec.default_, ps2, p) :: post
        = pre ++ ((WSpec.default_, ps1, p) :: (mid ++ (WSpec.default_, ps2, p) :: post))
      by simp]
    rcases h1 : buildTagMap ⟨[], [], [], []⟩ pre with e | s1
    · exact ⟨e, buildTagMap_append_error _ h1⟩
    · rw [buildTagMap_append_ok _ h1]
      rcases h2 : processDef s1 (WSpec.default_, ps1, p) with e | s2
      · exact ⟨e, by simp [buildTagMap, h2]⟩
      · rcases buildTagMap_fails (fun s => (alookup s.defaults_by_precedence p).isSome)
          (fun s d s' hok hP => processDef_preserves_default hok hP)
          (WSpec.default_, ps2, p)
          (fun s hP => ⟨.multipleDefaults, processDef_default_trigger ps2 p hP⟩)
          mid post s2 (processDef_default_creates h2) with ⟨e, he⟩
        exact ⟨e, by simp only [buildTagMap, h2]; exact he⟩
  · intro pre post ts p
    simp only [TagMap.make]
    rcases buildTagMap_fails (fun _ => True) (fun _ _ _ _ _ => trivial)
      (WSpec.multi ts, PVal.copySent, p)
      (fun s _ => ⟨.copyWithMulti, by simp [processDef]⟩)
      pre post ⟨[], [], [], []⟩ trivial with ⟨e, he⟩
    exact ⟨e, he⟩
  · intro pre mid post d1 d2 v hr1 hr2 hne
    simp only [TagMap.make]
    rw [show pre ++ d1 :: mid ++ d2 :: post = pre ++ (d1 :: (mid ++ d2 :: post)) by simp]
    rcases h1 : buildTagMap ⟨[], [], [], []⟩ pre with e | s1
    · exact ⟨e, buildTagMap_append_error _ h1⟩
    · rw [buildTagMap_append_ok _ h1]
      rcases h2 : processDef s1 d1 with e | s2
      · exact ⟨e, by simp [buildTagMap, h2]⟩
      · rcases buildTagMap_fails (fun s => alookup s.precedences v = some d1.2.2)
          (fun s d s' hok hP => processDef_preserves_prec hok hP)
          d2
          (fun s hP => processDef_conflict_trigger hr2 hP (Ne.symm hne))
          mid post s2 (processDef_regTarget_creates h2 hr1) with ⟨e, he⟩
        exact ⟨e, by simp only [buildTagMap, h2]; exact he⟩

/-- Witness for C5: concrete two-element definition lists triggering each
of the three construction failures. -/
theorem tagmap_construction_failures_witness :
    (∃ e, TagMap.make
      [(WSpec.default_, PVal.str "a", 0), (WSpec.default_, PVal.str "b", 0)] = .error e)
    ∧ (∃ e, TagMap.make [(WSpec.multi ["+A", "+B"], PVal.copySent, 0)] = .error e)
    ∧ (∃ e, TagMap.make
      [(WSpec.single "+A", PVal.str "x", 0), (WSpec.single "+B", PVal.str "x", 1)]
      = .error e) :=
  ⟨tagmap_construction_failures.1 [] [] [] (PVal.str "a") (PVal.str "b") 0,
   tagmap_construction_failures.2.1 [] [] ["+A", "+B"] 0,
   tagmap_construction_failures.2.2 [] [] [] (WSpec.single "+A", PVal.str "x", 0)
     (WSpec.single "+B", PVal.str "x", 1) (PVal.str "x") (by decide) (by decide)
     (by decide)⟩

/-! ## Paradigm manager: size declarations -/

theorem dictInsert_keys {κ ν : Type} [DecidableEq κ] (k : κ) (v : ν)
    (d : List (κ × ν)) (s : κ) :
    s ∈ (dictInsert k v d).map Prod.fst ↔ s = k ∨ s ∈ d.map Prod.fst := by
  induction d with
  | nil => simp [dictInsert, eq_comm]
  | cons p rest ih =>
    by_cases hp : p.1 = k
    · simp [dictInsert, hp, eq_comm]
    · simp only [dictInsert, hp, if_neg, not_false_iff, List.map_cons, List.mem_cons, ih]
      tauto

theorem sizeToOrderGo_mem (s : String) :
    ∀ (l : List String) (i : Nat) (d : List (String × Nat)),
      s ∈ (sizeToOrderGo i l d).map Prod.fst ↔ s ∈ d.map Prod.fst ∨ s ∈ l := by
  intro l
  induction l with
  | nil => intro i d; simp [sizeToOrderGo]
  | cons x rest ih =>
    intro i d
    simp only [sizeToOrderGo, ih, dictInsert_keys, List.mem_cons]
    tauto

theorem size_to_order_mem (m : ParadigmManagerWithExplicitSizes) (s : String) :
    s ∈ (size_to_order m).map Prod.fst ↔ s ∈ m.ordered_sizes := by
  have h := sizeToOrderGo_mem s m.ordered_sizes 0 []
  simpa [size_to_order] using h

theorem checkParadigms_iff (valid : List String) :
    ∀ l : List (String × List String), (∀ pr ∈ l, pr.2 ≠ []) →
      ((checkParadigms valid l = .ok false ↔
        ∃ pr ∈ l, ∃ s ∈ pr.2, valid.contains s = false)
      ∧ (checkParadigms valid l = .ok true ↔
        ∀ pr ∈ l, ∀ s ∈ pr.2, valid.contains s = true)) := by
  intro l
  induction l with
  | nil =>
    intro _
    constructor
    · simp [checkParadigms]
    · simp [checkParadigms]
  | cons pr rest ih =>
    intro hwf
    obtain ⟨n, sizes⟩ := pr
    have hne : sizes ≠ [] := hwf (n, sizes) (List.mem_cons_self _ _)
    rcases ih (fun q hq => hwf q (List.mem_cons_of_mem _ hq)) with ⟨ihf, iht⟩
    have hunfold : checkParadigms valid ((n, sizes) :: rest)
        = if sizes.any (fun s => !(valid.contains s)) then Except.ok false
          else checkParadigms valid rest := by
      rw [show checkParadigms valid ((n, sizes) :: rest)
          = (if sizes = [] then Except.error SizeErr.paradigmDoesNotExist
             else if sizes.any (fun s => !(valid.contains s)) then Except.ok false
             else checkParadigms valid rest) from rfl, if_neg hne]
    rcases hany : sizes.any (fun s => !(valid.contains s)) with _ | _
    · have hstep : checkParadigms valid ((n, sizes) :: rest) = checkParadigms valid rest := by
        rw [hunfold, hany]
        simp
      have hhead : ∀ s ∈ sizes, valid.contains s = true := by
        intro s hs
        have := List.any_eq_false.mp hany s hs
        simpa using this
      constructor
      · rw [hstep, ihf]
        constructor
        · intro ⟨q, hq, hrest⟩
          exact ⟨q, List.mem_cons_of_mem _ hq, hrest⟩
        · intro ⟨q, hq, s, hs, hcs⟩
          rcases List.mem_cons.mp hq with hq0 | hq1
          · exfalso
            have : valid.contains s = true := by
              apply hhead
              rw [show sizes = ((n, sizes) : String × List String).2 from rfl, ← hq0]
              exact hs
            rw [this] at hcs
            cases hcs
          · exact ⟨q, hq1, s, hs, hcs⟩
      · rw [hstep, iht]
        constructor
        · intro hrest q hq
          rcases List.mem_cons.mp hq with hq0 | hq1
          · intro s hs
            apply hhead
            rw [show sizes = ((n, sizes) : String × List String).2 from rfl, ← hq0]
            exact hs
          · exact hrest q hq1
        · intro hall q hq
          exact hall q (List.mem_cons_of_mem _ hq)
    · have hstep : checkParadigms valid ((n, sizes) :: rest) = .ok false := by
        rw [hunfold, hany]
        simp
      rcases List.any_eq_true.mp hany with ⟨s, hs, hcs⟩
      have hcs' : valid.contains s = false := by simpa using hcs
      constructor
      · rw [hstep]
        simp only [true_iff]
        exact ⟨(n, sizes), List.mem_cons_self _ _, s, hs, hcs'⟩
      · rw [hstep]
        constructor
        · intro hcontra
          cases hcontra
        · intro hall
          have := hall (n, sizes) (List.mem_cons_self _ _) s hs
          rw [this] at hcs'
          cases hcs'

theorem valid_contains_iff (m : ParadigmManagerWithExplicitSizes) (s : String) :
    (ONLY_SIZE :: (size_to_order m).map Prod.fst).contains s = true ↔
      s = ONLY_SIZE ∨ s ∈ m.ordered_sizes := by
  rw [List.elem_iff, List.mem_cons, size_to_order_mem]

/-- C6: `all_sizes_fully_specified()` returns false exactly when some
registered paradigm has a discovered size that is neither the implicit
only-size sentinel nor present in the declared explicit order, and true
exactly when every discovered size of every registered paradigm is so
covered. (The hypothesis that every registered paradigm has at least one
size is an invariant of the load procedure, which only creates a registry
entry by storing a size under it.) -/
theorem all_sizes_fully_specified_iff (m : ParadigmManagerWithExplicitSizes)
    (hwf : ∀ pr ∈ m.name_to_layout, pr.2 ≠ []) :
    (all_sizes_fully_specified m = .ok false ↔
      ∃ pr ∈ m.name_to_layout, ∃ s ∈ pr.2, s ≠ ONLY_SIZE ∧ ¬ s ∈ m.ordered_sizes)
    ∧ (all_sizes_fully_specified m = .ok true ↔
      ∀ pr ∈ m.name_to_layout, ∀ s ∈ pr.2, s = ONLY_SIZE ∨ s ∈ m.ordered_sizes) := by
  rcases checkParadigms_iff (ONLY_SIZE :: (size_to_order m).map Prod.fst)
    m.name_to_layout hwf with ⟨hf, ht⟩
  constructor
  · rw [show all_sizes_fully_specified m
        = checkParadigms (ONLY_SIZE :: (size_to_order m).map Prod.fst) m.name_to_layout
      from rfl, hf]
    constructor
    · intro ⟨pr, hpr, s, hs, hcs⟩
      refine ⟨pr, hpr, s, hs, ?_⟩
      have hnot : ¬(s = ONLY_SIZE ∨ s ∈ m.ordered_sizes) := by
        intro hor
        have := (valid_contains_iff m s).mpr hor
        rw [this] at hcs
        cases hcs
      exact ⟨fun h => hnot (Or.inl h), fun h => hnot (Or.inr h)⟩
    · intro ⟨pr, hpr, s, hs, h1, h2⟩
      refine ⟨pr, hpr, s, hs, ?_⟩
      rcases hb : (ONLY_SIZE :: (size_to_order m).map Prod.fst).contains s with _ | _
      · rfl
      · exact absurd ((valid_contains_iff m s).mp hb) (by tauto)
  · rw [show all_sizes_fully_specified m
        = checkParadigms (ONLY_SIZE :: (size_to_order m).map Prod.fst) m.name_to_layout
      from rfl, ht]
    constructor
    · intro hall pr hpr s hs
      exact (valid_contains_iff m s).mp (hall pr hpr s hs)
    · intro hall pr hpr s hs
      exact (valid_contains_iff m s).mpr (hall pr hpr s hs)

/-- Witness for C6 at the fully-declared manager `pmW`. -/
theorem all_sizes_fully_specified_iff_witness :
    (all_sizes_fully_specified pmW = .ok false ↔
      ∃ pr ∈ pmW.name_to_layout, ∃ s ∈ pr.2, s ≠ ONLY_SIZE ∧ ¬ s ∈ pmW.ordered_sizes)
    ∧ (all_sizes_fully_specified pmW = .ok true ↔
      ∀ pr ∈ pmW.name_to_layout, ∀ s ∈ pr.2, s = ONLY_SIZE ∨ s ∈ pmW.ordered_sizes) :=
  all_sizes_fully_specified_iff pmW (by decide)

/-- C7 counterexample: on a manager whose only paradigm is registered
solely under the implicit only-size sentinel (and whose declared order
does not contain the sentinel), `all_sizes_fully_specified()` returns
true, yet `sizes_of` on that registered paradigm name fails with the
size-order `KeyError` — so the claim's lookup-failure branch is
reachable after successful validation. -/
theorem sizes_of_only_size_counterexample :
    all_sizes_fully_specified pmOnly = .ok true ∧
    sizes_of pmOnly "p" = .error .keyError :=
  ⟨rfl, rfl⟩

/-- C7 (amended): when `all_sizes_fully_specified()` returns true,
`sizes_of(name)` succeeds for every registered paradigm name all of whose
discovered sizes appear in the declared explicit order, and returns those
sizes sorted by the declared order; a paradigm registered only under the
only-size sentinel (with the sentinel absent from the declared order)
instead fails the size-order lookup. -/
theorem sizes_of_succeeds_when_declared (m : ParadigmManagerWithExplicitSizes)
    (name : String) (sizes : List String)
    (_hall : all_sizes_fully_specified m = .ok true)
    (hname : alookup m.name_to_layout name = some sizes) (hne : sizes ≠ [])
    (hdecl : ∀ s ∈ sizes, s ∈ m.ordered_sizes) :
    ∃ out, sizes_of m name = .ok out ∧ out.Perm sizes ∧
      out.Pairwise (fun a b => ∀ i j : Nat,
        alookup (size_to_order m) a = some i → alookup (size_to_order m) b = some j →
          i ≤ j) := by
  have hsup : super_sizes_of m name = .ok sizes := by
    simp [super_sizes_of, hname, hne]
  have hsome : ∀ s ∈ sizes, (alookup (size_to_order m) s).isSome := fun s hs =>
    (alookup_isSome_iff _ _).mpr ((size_to_order_mem m s).mpr (hdecl s hs))
  rcases adecorate_total SizeErr.keyError (size_to_order m) sizes hsome with ⟨ps, hps⟩
  rcases adecorate_ok hps with ⟨hmap, hmem⟩
  have hmem' : ∀ pr ∈ ssort ps, alookup (size_to_order m) pr.1 = some pr.2 :=
    fun pr hpr => hmem pr ((ssort_perm ps).mem_iff.mp hpr)
  refine ⟨(ssort ps).map Prod.fst, ?_, ?_, ?_⟩
  · simp [sizes_of, hsup, hps]
  · have hperm : ((ssort ps).map Prod.fst).Perm (ps.map Prod.fst) :=
      (ssort_perm ps).map Prod.fst
    rw [hmap] at hperm
    exact hperm
  · rw [List.pairwise_map]
    refine List.Pairwise.imp_of_mem ?_ (ssort_pairwise ps)
    intro a b ha hb hle i j hi hj
    have hi' : i = a.2 := (Option.some.inj ((hmem' a ha).symm.trans hi)).symm
    have hj' : j = b.2 := (Option.some.inj ((hmem' b hb).symm.trans hj)).symm
    rw [hi', hj']
    exact hle

/-- Witness for the amended C7 at the fully-declared manager `pmW`. -/
theorem sizes_of_succeeds_when_declared_witness :
    ∃ out, sizes_of pmW "p" = .ok out ∧ out.Perm ["full", "small"] ∧
      out.Pairwise (fun a b => ∀ i j : Nat,
        alookup (size_to_order pmW) a = some i → alookup (size_to_order pmW) b = some j →
          i ≤ j) :=
  sizes_of_succeeds_when_declared pmW "p" ["full", "small"] rfl rfl (by decide) (by decide)

/-! ## Reduplication and preverb extraction -/

/-- C8: the synthesized reduplication string is determined by the marker
and the first character of the following token's final `/`-segment —
weak+consonant gives `letter + "a-"`, weak+non-consonant `"ay-"`,
strong+consonant `letter + "âh-"`, strong+non-consonant `"âh-"`; in
particular `["RdplW", "nipâw"]` yields `"na-"` and `["RdplS", "âcimow"]`
yields `"âh-"`. -/
theorem reduplication_string_rules :
    (∀ (tags : List String) (i : Nat) (word : String) (c : Char) (cs : List Char),
      tags[i + 1]? = some word →
      ((pySplit '/' word).getLastD "").data = c :: cs →
      generate_reduplication_string tags "RdplW" i =
        .ok (if is_consonant c then String.mk [c] ++ "a-" else "ay-") ∧
      generate_reduplication_string tags "RdplS" i =
        .ok (if is_consonant c then String.mk [c] ++ "âh-" else "âh-"))
    ∧ generate_reduplication_string ["RdplW", "nipâw"] "RdplW" 0 = .ok "na-"
    ∧ generate_reduplication_string ["RdplS", "âcimow"] "RdplS" 0 = .ok "âh-" := by
  refine ⟨?_, rfl, rfl⟩
  intro tags i word c cs hw hd
  constructor
  · simp only [generate_reduplication_string, hw]
    rw [hd]
    simp
  · simp only [generate_reduplication_string, hw]
    rw [hd]
    simp

/-- Witness for C8 on the concrete consonant-branch input. -/
theorem reduplication_string_rules_witness :
    generate_reduplication_string ["RdplW", "nipâw"] "RdplW" 0 =
      .ok (if is_consonant 'n' then String.mk ['n'] ++ "a-" else "ay-") :=
  (reduplication_string_rules.1 ["RdplW", "nipâw"] 0 "nipâw" 'n' "ipâw".data rfl rfl).1

theorem glx_list_last_marker (L : String → Option String) (F : String → List Preverb)
    (D : String → String → Nat) (tags : List String) (t : String)
    (ht : t = "RdplW" ∨ t = "RdplS") :
    ∀ (l : List String) (i : Nat), l.getLast? = some t → i + l.length = tags.length →
      ∃ e, glx_list L F D tags i l = .error e := by
  intro l
  induction l with
  | nil =>
    intro i h _
    cases h
  | cons a rest ih =>
    intro i hlast hlen
    cases rest with
    | nil =>
      have ha : a = t := by simpa using hlast
      have hidx : tags[i + 1]? = none := List.getElem?_eq_none (by
        simp only [List.length_cons, List.length_nil] at hlen
        omega)
      have hgen : generate_reduplication_string tags a i = .error () := by
        simp [generate_reduplication_string, hidx]
      have hcond : a = "RdplW" ∨ a = "RdplS" := ha ▸ ht
      have hstep : glx_step L F D tags i a = .error () := by
        simp only [glx_step, if_pos hcond, hgen]
      exact ⟨(), by simp [glx_list, hstep]⟩
    | cons b rest' =>
      rw [List.getLast?_cons_cons] at hlast
      rcases hstep : glx_step L F D tags i a with e | o
      · refine ⟨e, ?_⟩
        rw [show glx_list L F D tags i (a :: b :: rest')
            = (match glx_step L F D tags i a with
               | .error e => .error e
               | .ok o' =>
                 match glx_list L F D tags (i + 1) (b :: rest') with
                 | .error e => .error e
                 | .ok others => .ok (o'.toList ++ others)) from rfl, hstep]
      · have hlen' : (i + 1) + (b :: rest').length = tags.length := by
          simp only [List.length_cons] at hlen ⊢
          omega
        rcases ih (i + 1) hlast hlen' with ⟨e, he⟩
        refine ⟨e, ?_⟩
        have h1 : glx_list L F D tags i (a :: b :: rest')
            = match glx_list L F D tags (i + 1) (b :: rest') with
              | .error e => .error e
              | .ok others => .ok (o.toList ++ others) := by
          rw [show glx_list L F D tags i (a :: b :: rest')
              = (match glx_step L F D tags i a with
                 | .error e => .error e
                 | .ok o' =>
                   match glx_list L F D tags (i + 1) (b :: rest') with
                   | .error e => .error e
                   | .ok others => .ok (o'.toList ++ others)) from rfl, hstep]
        rw [h1, he]

/-- C10: on every analysis string whose tag sequence ends with a
reduplication marker as its final tag, lexical-feature extraction does
not return normally: the reduplication synthesizer unconditionally reads
the token at position `i + 1`, so extraction raises the index error. -/
theorem trailing_rdpl_marker_errors (L : String → Option String)
    (F : String → List Preverb) (D : String → String → Nat)
    (result_analysis : String) (t : String)
    (hlast : (pySplit '+' result_analysis).getLast? = some t)
    (ht : t = "RdplW" ∨ t = "RdplS") :
    ∃ e, get_lexical_information L F D result_analysis = .error e := by
  rcases glx_list_last_marker L F D (pySplit '+' result_analysis) t ht
    (pySplit '+' result_analysis) 0 hlast (by simp) with ⟨e, he⟩
  exact ⟨e, by simp [get_lexical_information, he]⟩

/-- Witness for C10 on the analysis `"nipâw+RdplW"`. -/
theorem trailing_rdpl_marker_errors_witness :
    ∃ e, get_lexical_information (fun _ => none) (fun _ => []) (fun _ _ => 0)
      "nipâw+RdplW" = .error e :=
  trailing_rdpl_marker_errors (fun _ => none) (fun _ => []) (fun _ _ => 0)
    "nipâw+RdplW" "RdplW" rfl (Or.inl rfl)

/-- C9 counterexample: the code compares candidates after Python
`str.strip("-")`, which removes hyphens from BOTH ends, not only a
trailing hyphen. With canonical text `"a"` and candidates
`["ab-", "-a"]`, the extractor selects `"-a"` (both-ends-stripped
distance 0), while the claim's trailing-strip rule selects the first
minimal candidate `"ab-"` (both candidates at distance 1). -/
theorem preverb_trailing_strip_counterexample :
    get_lexical_information lingShortC fetchPreverbsC get_modified_distance "PV/a" =
      .ok [⟨.preverb ⟨"-a", true⟩, .Preverb, 0, "PV/a"⟩]
    ∧ min_by_key (fun pr : Preverb => get_modified_distance "a" (rstrip_hyphens pr.text))
        (Preverb.mk "ab-" true) [Preverb.mk "-a" true] = Preverb.mk "ab-" true
    ∧ Preverb.mk "-a" true ≠ Preverb.mk "ab-" true :=
  ⟨rfl, rfl, by decide⟩

/-- C9 (amended): for a preverb tag whose label resolution yields a
non-empty canonical text, the extractor never errors: with no candidates
it produces a placeholder record (canonical text, marked as a lemma);
with candidates it selects the first candidate minimizing the edit
distance between the canonical text and the candidate's text with
leading AND trailing hyphens stripped (ties resolve to the first minimal
candidate). -/
theorem preverb_selection_first_minimal (L : String → Option String)
    (F : String → List Preverb) (D : String → String → Nat)
    (tags : List String) (i : Nat) (tag ls : String)
    (h1 : tag ≠ "RdplW") (h2 : tag ≠ "RdplS") (h3 : pyStarts tag "PV/" = true)
    (h4 : L tag = some ls) (h5 : ls ≠ "") :
    (F ((ls.drop 9).dropRight 1) = [] →
      glx_step L F D tags i tag =
        .ok (some ⟨.preverb ⟨(ls.drop 9).dropRight 1, true⟩, .Preverb, i, tag⟩))
    ∧ (∀ (r : Preverb) (rs : List Preverb), F ((ls.drop 9).dropRight 1) = r :: rs →
        ∃ pre post chosen,
          glx_step L F D tags i tag = .ok (some ⟨.preverb chosen, .Preverb, i, tag⟩) ∧
          r :: rs = pre ++ chosen :: post ∧
          (∀ y ∈ pre,
            D ((ls.drop 9).dropRight 1) (strip_hyphens chosen.text) <
              D ((ls.drop 9).dropRight 1) (strip_hyphens y.text)) ∧
          ∀ y ∈ r :: rs,
            D ((ls.drop 9).dropRight 1) (strip_hyphens chosen.text) ≤
              D ((ls.drop 9).dropRight 1) (strip_hyphens y.text)) := by
  have hcond : ¬(tag = "RdplW" ∨ tag = "RdplS") := by tauto
  constructor
  · intro hF
    simp [glx_step, hcond, h3, h4, h5, hF]
  · intro r rs hF
    rcases min_by_key_first
      (fun pr : Preverb => D ((ls.drop 9).dropRight 1) (strip_hyphens pr.text)) rs r with
      ⟨pre, post, hdec, hpre, hmin⟩
    refine ⟨pre, post,
      min_by_key (fun pr : Preverb => D ((ls.drop 9).dropRight 1) (strip_hyphens pr.text)) r rs,
      ?_, hdec, hpre, hmin⟩
    simp [glx_step, hcond, h3, h4, h5, hF]

/-- Witness for the amended C9 on the concrete candidates
`["ab-", "-a"]` against canonical text `"a"`. -/
theorem preverb_selection_first_minimal_witness :
    ∃ (pre post : List Preverb) (chosen : Preverb),
      glx_step lingShortC fetchPreverbsC get_modified_distance ["PV/a"] 0 "PV/a" =
        .ok (some ⟨.preverb chosen, .Preverb, 0, "PV/a"⟩) ∧
      [Preverb.mk "ab-" true, Preverb.mk "-a" true] = pre ++ chosen :: post ∧
      (∀ y ∈ pre,
        get_modified_distance "a" (strip_hyphens chosen.text) <
          get_modified_distance "a" (strip_hyphens y.text)) ∧
      ∀ y ∈ [Preverb.mk "ab-" true, Preverb.mk "-a" true],
        get_modified_distance "a" (strip_hyphens chosen.text) ≤
          get_modified_distance "a" (strip_hyphens y.text) :=
  (preverb_selection_first_minimal lingShortC fetchPreverbsC get_modified_distance
    ["PV/a"] 0 "PV/a" "Preverb: a-" (by decide) (by decide) (by decide) rfl
    (by decide)).2 ⟨"ab-", true⟩ [⟨"-a", true⟩] rfl
